import Mathlib

/-!
Verification development for the walker-population search algorithm
implemented in fractal_zero/fmc.py.  Numeric tensors are modelled as
functions over finite index types with real entries (or entries in an
arbitrary linear ordered field where the source only uses field
arithmetic); float literals are modelled as the exact rationals they
denote.  Randomness and the external dynamics/prediction oracles are
modelled as explicit inputs threaded through every stochastic step.
-/

namespace FractalZero

/-! ### Relativizer: model of `_relativize_vector` (fmc.py lines 14-22) -/

/-- Mean of a vector, as computed by `vector.mean()`. -/
noncomputable def vmean {n : ℕ} (v : Fin n → ℝ) : ℝ := (∑ i, v i) / n

/-- Sample standard deviation with Bessel correction, as computed by
`vector.std()`. -/
noncomputable def vstd {n : ℕ} (v : Fin n → ℝ) : ℝ :=
  Real.sqrt ((∑ i, (v i - vmean v) ^ 2) / ((n : ℝ) - 1))

/-- Standardized scores: `standard = (vector - vector.mean()) / std`. -/
noncomputable def standard {n : ℕ} (v : Fin n → ℝ) : Fin n → ℝ :=
  fun i => (v i - vmean v) / vstd v

/-- First in-place masked update of `_relativize_vector`:
`standard[standard > 0] = torch.log(1 + standard[standard > 0]) + 1`.
The right-hand side is computed from the pre-assignment tensor. -/
noncomputable def relStep1 {n : ℕ} (z : Fin n → ℝ) : Fin n → ℝ :=
  fun i => if 0 < z i then Real.log (1 + z i) + 1 else z i

/-- Second in-place masked update of `_relativize_vector`:
`standard[standard <= 0] = torch.exp(standard[standard <= 0])`, whose mask
is evaluated on the tensor already rewritten by the first update. -/
noncomputable def relStep2 {n : ℕ} (s : Fin n → ℝ) : Fin n → ℝ :=
  fun i => if s i ≤ 0 then Real.exp (s i) else s i

/-- Model of `_relativize_vector`: if the standard deviation is zero the
result is all ones, otherwise the two sequential masked updates are
applied to the standardized vector. -/
noncomputable def relativizeVector {n : ℕ} (v : Fin n → ℝ) : Fin n → ℝ :=
  if vstd v = 0 then fun _ => 1 else relStep2 (relStep1 (standard v))

/-- C4: every entry of the Relativizer output is strictly positive
(including the zero-variance case, where the result is all ones); entries
with standardized score z > 0 map to log(1+z)+1, which is at least 1, and
entries with z ≤ 0 map to exp z, which lies in (0, 1]; the closed-form
equation in the second conjunct shows the second masked update never
re-selects an entry already rewritten by the first one. -/
theorem relativize_positive {n : ℕ} (v : Fin n → ℝ) (i : Fin n) :
    0 < relativizeVector v i ∧
    relativizeVector v i =
      (if vstd v = 0 then 1
       else if 0 < standard v i then Real.log (1 + standard v i) + 1
       else Real.exp (standard v i)) ∧
    (vstd v ≠ 0 → 0 < standard v i → 1 ≤ relativizeVector v i) ∧
    (vstd v ≠ 0 → standard v i ≤ 0 → relativizeVector v i ≤ 1) := by
  by_cases h : vstd v = 0
  · refine ⟨?_, ?_, ?_, ?_⟩ <;> simp [relativizeVector, h]
  · by_cases hz : 0 < standard v i
    · have hlog : 0 ≤ Real.log (1 + standard v i) :=
        Real.log_nonneg (by linarith)
      have hz1 : relStep1 (standard v) i = Real.log (1 + standard v i) + 1 := by
        simp [relStep1, hz]
      have hval : relativizeVector v i = Real.log (1 + standard v i) + 1 := by
        simp only [relativizeVector, if_neg h, relStep2, hz1]
        rw [if_neg (by linarith)]
      refine ⟨by rw [hval]; linarith, ?_, ?_, ?_⟩
      · rw [hval, if_neg h, if_pos hz]
      · intro _ _
        rw [hval]; linarith
      · intro _ hle
        exact absurd hz (not_lt.mpr hle)
    · have hle : standard v i ≤ 0 := not_lt.mp hz
      have hz1 : relStep1 (standard v) i = standard v i := by
        simp [relStep1, hz]
      have hval : relativizeVector v i = Real.exp (standard v i) := by
        simp only [relativizeVector, if_neg h, relStep2, hz1]
        rw [if_pos hle]
      refine ⟨by rw [hval]; exact Real.exp_pos _, ?_, ?_, ?_⟩
      · rw [hval, if_neg h, if_neg hz]
      · intro _ hpos
        exact absurd hpos hz
      · intro _ _
        rw [hval]
        calc Real.exp (standard v i) ≤ Real.exp 0 := Real.exp_le_exp.mpr hle
          _ = 1 := Real.exp_zero

/-- Witness for C4 at a concrete zero-variance input: the output entry is
positive and equal to 1. -/
theorem relativize_positive_witness :
    0 < relativizeVector ![(1 : ℝ), 1] 0 ∧ relativizeVector ![(1 : ℝ), 1] 0 = 1 := by
  have h := relativize_positive ![(1 : ℝ), 1] 0
  have hstd : vstd ![(1 : ℝ), 1] = 0 := by
    simp [vstd, vmean, Fin.sum_univ_two]
  exact ⟨h.1, by rw [h.2.1, if_pos hstd]⟩

/-! ### Cloning primitive: model of `_clone_vector` (fmc.py lines 328-329) -/

/-- Boolean-mask tensor read `w[mask]`: the elements of `w` at positions
whose mask entry is true, in index order. -/
def maskedSelect {α : Type} : List Bool → List α → List α
  | true :: ms, x :: xs => x :: maskedSelect ms xs
  | false :: ms, _ :: xs => maskedSelect ms xs
  | _, _ => []

/-- Boolean-mask tensor assignment `v[mask] = src`: successive elements of
`src` replace the elements of `v` at positions whose mask entry is true. -/
def maskedAssign {α : Type} : List Bool → List α → List α → List α
  | true :: ms, _ :: xs, s :: ss => s :: maskedAssign ms xs ss
  | false :: ms, x :: xs, ss => x :: maskedAssign ms xs ss
  | _, xs, _ => xs

/-- Model of `_clone_vector`:
`vector[clone_mask] = vector[clone_partners[clone_mask]]`.
The right-hand side gathers the original values of `vector` at the masked
partner indices into a fresh tensor before the masked assignment writes
any element, matching torch advanced-indexing semantics.  `d0` is the
default returned by out-of-range reads. -/
def cloneVectorList {α : Type} (d0 : α) (v : List α) (partner : List ℕ)
    (mask : List Bool) : List α :=
  maskedAssign mask v ((maskedSelect mask partner).map (fun j => v.getD j d0))

theorem maskedSelect_length {α : Type} :
    ∀ (mask : List Bool) (w : List α), mask.length = w.length →
      (maskedSelect mask w).length = mask.count true := by
  intro mask
  induction mask with
  | nil => intro w h; simp [maskedSelect]
  | cons b ms ih =>
    intro w h
    cases w with
    | nil => simp at h
    | cons x xs =>
      have h1 : ms.length = xs.length := by simpa using h
      cases b with
      | false => simpa [maskedSelect, List.count_cons] using ih xs h1
      | true => simpa [maskedSelect, List.count_cons] using ih xs h1

theorem maskedAssign_getD {α : Type} (d0 : α) :
    ∀ (mask : List Bool) (v src : List α) (i : ℕ),
      mask.length = v.length → src.length = mask.count true →
      (maskedAssign mask v src).getD i d0 =
        if mask.getD i false = true then src.getD ((mask.take i).count true) d0
        else v.getD i d0 := by
  intro mask
  induction mask with
  | nil => intro v src i h1 h2; simp [maskedAssign]
  | cons b ms ih =>
    intro v src i h1 h2
    cases v with
    | nil => simp at h1
    | cons x xs =>
      have h1' : ms.length = xs.length := by simpa using h1
      cases b with
      | true =>
        cases src with
        | nil => simp [List.count_cons] at h2
        | cons s ss =>
          have h2' : ss.length = ms.count true := by
            simpa [List.count_cons] using h2
          cases i with
          | zero => simp [maskedAssign]
          | succ i =>
            have hstep : maskedAssign (true :: ms) (x :: xs) (s :: ss) =
                s :: maskedAssign ms xs ss := rfl
            rw [hstep, List.getD_cons_succ, ih xs ss i h1' h2']
            simp [List.count_cons]
      | false =>
        have h2' : src.length = ms.count true := by
          simpa [List.count_cons] using h2
        cases i with
        | zero => simp [maskedAssign]
        | succ i =>
          have hstep : maskedAssign (false :: ms) (x :: xs) src =
              x :: maskedAssign ms xs src := rfl
          rw [hstep, List.getD_cons_succ, ih xs src i h1' h2']
          simp [List.count_cons]

theorem maskedSelect_getD {α : Type} (d0 : α) :
    ∀ (mask : List Bool) (w : List α) (i : ℕ),
      mask.length = w.length → mask.getD i false = true →
      (maskedSelect mask w).getD ((mask.take i).count true) d0 = w.getD i d0 := by
  intro mask
  induction mask with
  | nil => intro w i h1 h2; simp at h2
  | cons b ms ih =>
    intro w i h1 h2
    cases w with
    | nil => simp at h1
    | cons y ys =>
      have h1' : ms.length = ys.length := by simpa using h1
      cases b with
      | true =>
        cases i with
        | zero => simp [maskedSelect]
        | succ i =>
          have h2' : ms.getD i false = true := by simpa using h2
          have hsel : maskedSelect (true :: ms) (y :: ys) =
              y :: maskedSelect ms ys := rfl
          rw [hsel]
          simpa [List.count_cons] using ih ys i h1' h2'
      | false =>
        cases i with
        | zero => simp at h2
        | succ i =>
          have h2' : ms.getD i false = true := by simpa using h2
          have hsel : maskedSelect (false :: ms) (y :: ys) =
              maskedSelect ms ys := rfl
          rw [hsel]
          simpa [List.count_cons] using ih ys i h1' h2'

theorem count_take_lt :
    ∀ (mask : List Bool) (i : ℕ), i < mask.length → mask.getD i false = true →
      (mask.take i).count true < mask.count true := by
  intro mask
  induction mask with
  | nil => intro i h1 h2; simp at h1
  | cons b ms ih =>
    intro i h1 h2
    cases i with
    | zero =>
      have hb : b = true := by simpa using h2
      subst hb
      simp [List.count_cons]
    | succ i =>
      have h1' : i < ms.length := by simpa using h1
      have h2' : ms.getD i false = true := by simpa using h2
      have := ih i h1' h2'
      cases b <;> simp [List.count_cons] <;> omega

theorem getD_map_of_lt {α β : Type} (f : α → β) (d0 : β) (e0 : α) :
    ∀ (l : List α) (i : ℕ), i < l.length →
      (l.map f).getD i d0 = f (l.getD i e0) := by
  intro l
  induction l with
  | nil => intro i h; simp at h
  | cons x xs ih =>
    intro i h
    cases i with
    | zero => simp
    | succ i => simpa using ih i (by simpa using h)

theorem cloneVectorList_getD {α : Type} (d0 : α) (v : List α)
    (partner : List ℕ) (mask : List Bool) (i : ℕ)
    (hm : mask.length = v.length) (hp : partner.length = v.length)
    (hi : i < v.length) :
    (cloneVectorList d0 v partner mask).getD i d0 =
      if mask.getD i false = true then v.getD (partner.getD i 0) d0
      else v.getD i d0 := by
  have hmp : mask.length = partner.length := hm.trans hp.symm
  have hsel : (maskedSelect mask partner).length = mask.count true :=
    maskedSelect_length mask partner hmp
  have hsrc : ((maskedSelect mask partner).map (fun j => v.getD j d0)).length =
      mask.count true := by simpa using hsel
  rw [cloneVectorList, maskedAssign_getD d0 mask v _ i hm hsrc]
  by_cases hmi : mask.getD i false = true
  · rw [if_pos hmi, if_pos hmi]
    have hlt : (mask.take i).count true < mask.count true :=
      count_take_lt mask i (by rw [hm]; exact hi) hmi
    rw [getD_map_of_lt _ d0 0 _ _ (by rw [hsel]; exact hlt)]
    rw [maskedSelect_getD 0 mask partner i hmp hmi]
  · rw [if_neg hmi, if_neg hmi]

/-- C3: the cloning operation yields v' with v'[i] = v[partner[i]] if
mask[i] and v'[i] = v[i] otherwise, where every read v[partner[i]] sees the
original pre-mutation value of v: the gather over the masked partner
indices happens before any element of v is overwritten. -/
theorem clone_vector_spec {α : Type} (d0 : α) (v : List α) (partner : List ℕ)
    (mask : List Bool) (i : ℕ)
    (hm : mask.length = v.length) (hp : partner.length = v.length)
    (hi : i < v.length) :
    (cloneVectorList d0 v partner mask).getD i d0 =
      if mask.getD i false = true then v.getD (partner.getD i 0) d0
      else v.getD i d0 :=
  cloneVectorList_getD d0 v partner mask i hm hp hi

/-- Witness for C3 on the partner-chain input from the claim: with
partner[1] = 0, partner[2] = 1 and walkers 1 and 2 both masked, both
cloned entries read the original vector values 10 and 20. -/
theorem clone_vector_spec_witness :
    (cloneVectorList (0 : ℕ) [10, 20, 30] [0, 0, 1] [false, true, true]).getD 1 0 = 10 ∧
    (cloneVectorList (0 : ℕ) [10, 20, 30] [0, 0, 1] [false, true, true]).getD 2 0 = 20 := by
  constructor
  · have h := clone_vector_spec (0 : ℕ) [10, 20, 30] [0, 0, 1] [false, true, true] 1
      rfl rfl (by decide)
    simpa using h
  · have h := clone_vector_spec (0 : ℕ) [10, 20, 30] [0, 0, 1] [false, true, true] 2
      rfl rfl (by decide)
    simpa using h

/-! ### Clone-receives histogram: model of the bookkeeping step of
`_execute_cloning` (fmc.py lines 256-262) -/

/-- Largest element of a list of naturals (0 for the empty list). -/
def listMax (l : List ℕ) : ℕ := l.foldr max 0

/-- Model of `torch.bincount`: for a nonempty list the result has length
`listMax l + 1` and entry j counts the occurrences of j; for the empty
list the result is empty. -/
def bincount (l : List ℕ) : List ℕ :=
  match l with
  | [] => []
  | _ :: _ => (List.range (listMax l + 1)).map (fun j => l.count j)

/-- The masked partner tensor `clone_partners[clone_mask]` as a list of
raw walker indices, in walker order. -/
def maskedPartnerList {n : ℕ} (partners : Fin n → Fin n)
    (mask : Fin n → Bool) : List ℕ :=
  ((List.finRange n).filter (fun i => mask i)).map (fun i => (partners i : ℕ))

/-- Histogram step of `_execute_cloning`:
`clone_receives[:len(hist)] += hist` where
`hist = torch.bincount(clone_partners[clone_mask])`; walkers at indices at
or beyond the histogram length receive zero. -/
def cloneReceivesUpdate {n : ℕ} (cr : Fin n → ℕ) (partners : Fin n → Fin n)
    (mask : Fin n → Bool) : Fin n → ℕ :=
  fun j => cr j + (bincount (maskedPartnerList partners mask)).getD (j : ℕ) 0

theorem mem_le_listMax {l : List ℕ} {a : ℕ} (h : a ∈ l) : a ≤ listMax l := by
  induction l with
  | nil => simp at h
  | cons x xs ih =>
    rcases List.mem_cons.mp h with rfl | h2
    · simp [listMax]
    · have := ih h2
      simp only [listMax, List.foldr_cons] at this ⊢
      omega

theorem bincount_getD (l : List ℕ) (j : ℕ) :
    (bincount l).getD j 0 = l.count j := by
  match l with
  | [] => simp [bincount]
  | x :: xs =>
    by_cases hj : j < listMax (x :: xs) + 1
    · have hlen : j < ((List.range (listMax (x :: xs) + 1)).map
          (fun j => (x :: xs).count j)).length := by
        simpa using hj
      rw [bincount, List.getD_eq_getElem _ _ hlen]
      simp
    · have hout : ((List.range (listMax (x :: xs) + 1)).map
          (fun j => (x :: xs).count j)).length ≤ j := by
        simpa using Nat.le_of_not_lt hj
      rw [bincount, List.getD_eq_default _ _ hout]
      have hnotmem : j ∉ x :: xs := by
        intro hmem
        exact hj (Nat.lt_succ_of_le (mem_le_listMax hmem))
      exact (List.count_eq_zero.mpr hnotmem).symm

theorem count_map_coe {α : Type} (f : α → ℕ) (l : List α) (j : ℕ) :
    (l.map f).count j = l.countP (fun a => f a == j) := by
  induction l with
  | nil => simp
  | cons x xs ih =>
    by_cases hx : f x = j <;>
      simp [List.count_cons, List.countP_cons, ih, hx]

theorem countP_filter_and {α : Type} (p q : α → Bool) (l : List α) :
    (l.filter q).countP p = l.countP (fun a => q a && p a) := by
  induction l with
  | nil => simp
  | cons x xs ih =>
    by_cases hx : q x = true <;> by_cases hp : p x = true <;>
      simp [List.filter_cons, List.countP_cons, ih, hx, hp]

/-- C7: the pre-clone histogram step adds to `clone_receives[j]` exactly
the number of walkers whose mask is true and whose partner is j, for every
walker j; walkers at indices beyond the observed histogram length receive
zero, which agrees with that count. -/
theorem clone_receives_histogram {n : ℕ} (cr : Fin n → ℕ)
    (partners : Fin n → Fin n) (mask : Fin n → Bool) (j : Fin n) :
    cloneReceivesUpdate cr partners mask j =
      cr j + (List.finRange n).countP
        (fun i => mask i && ((partners i : ℕ) == (j : ℕ))) := by
  unfold cloneReceivesUpdate
  rw [bincount_getD]
  congr 1
  unfold maskedPartnerList
  rw [count_map_coe, countP_filter_and]

/-! ### Clone probabilities: model of `_determine_clone_mask`
(fmc.py lines 204-215) -/

/-- Epsilon guard appearing in the clone-probability denominator, the
float literal 1e-8 read as an exact rational. -/
def epsFMC (α : Type) [LinearOrderedField α] : α := 1 / 10 ^ 8

/-- Clone probabilities:
`(pair_vr - vr) / torch.where(vr > 0, vr, 1e-8)` with
`pair_vr = vr[clone_partners]`. -/
def cloneProbabilities {α : Type} [LinearOrderedField α] {n : ℕ}
    (vr : Fin n → α) (partners : Fin n → Fin n) : Fin n → α :=
  fun i => (vr (partners i) - vr i) / (if 0 < vr i then vr i else epsFMC α)

/-- Clone mask obtained from the probabilities and the single uniform
scalar draw r: `clone_mask = (clone_probabilities >= r)`. -/
def cloneMaskOf {α : Type} [LinearOrderedField α] {n : ℕ}
    (p : Fin n → α) (r : α) : Fin n → Bool :=
  fun i => decide (p i ≥ r)

/-- C2 counterexample: at the virtual-reward vector (1, 1e-9) with both
partners equal to walker 0, walker 1 has 0 < vr[1] < 1e-8, and the clone
probability computed by the code differs from the claimed formula
(vr[partner] - vr) / max(vr, 1e-8): the code divides by vr[1] itself. -/
theorem clone_probability_not_max_eps :
    cloneProbabilities ![(1 : ℚ), 1 / 10 ^ 9] ![0, 0] 1 ≠
      (![(1 : ℚ), 1 / 10 ^ 9] (![0, 0] 1) - ![(1 : ℚ), 1 / 10 ^ 9] 1) /
        max (![(1 : ℚ), 1 / 10 ^ 9] 1) (epsFMC ℚ) := by
  norm_num [cloneProbabilities, epsFMC, Matrix.cons_val_one, Matrix.cons_val_zero,
    Matrix.head_cons]

/-- C2 amended: the clone probability for walker i is
(vr[partner[i]] - vr[i]) divided by vr[i] whenever vr[i] > 0 — even when
0 < vr[i] < 1e-8 — and divided by the epsilon 1e-8 only when vr[i] ≤ 0. -/
theorem clone_probability_denominator {α : Type} [LinearOrderedField α]
    {n : ℕ} (vr : Fin n → α) (partners : Fin n → Fin n) (i : Fin n)
    (h : 0 < vr i) :
    cloneProbabilities vr partners i = (vr (partners i) - vr i) / vr i := by
  simp [cloneProbabilities, if_pos h]

/-- Witness for the amended C2 at the concrete vector (1, 1e-9): walker 1
has virtual reward strictly between 0 and 1e-8 and its clone probability
is (1 - 1e-9) / 1e-9 = 10^9 - 1. -/
theorem clone_probability_denominator_witness :
    cloneProbabilities ![(1 : ℚ), 1 / 10 ^ 9] ![0, 0] 1 = 10 ^ 9 - 1 := by
  have h := clone_probability_denominator ![(1 : ℚ), 1 / 10 ^ 9] ![0, 0] 1
    (by norm_num [Matrix.cons_val_one, Matrix.head_cons])
  rw [h]
  norm_num [Matrix.cons_val_one, Matrix.cons_val_zero, Matrix.head_cons]

/-! ### The FMC walker-population state machine (fmc.py, class FMC) -/

/-- Run-scoped per-walker state of the FMC search: the dynamics model's
batched hidden state together with all per-walker buffers created by
`simulate` and the run-level aggregates.  The reward buffer column index
is modelled over ℕ (the source allocates exactly k columns and only
touches columns below k). -/
structure FMCState (n d : ℕ) where
  walkerState : Fin n → Fin d → ℝ
  actions : Fin n → ℤ
  rootActions : Option (Fin n → ℤ)
  rewardBuffer : Fin n → ℕ → ℝ
  valueSum : Fin n → ℝ
  visitCount : Fin n → ℕ
  cloneReceives : Fin n → ℕ
  predictedValues : Fin n → ℝ
  rewards : Fin n → ℝ
  rootValueSum : ℝ
  rootVisits : ℕ

/-- External oracles: the dynamics model (`forward` advances the batched
hidden state and returns per-walker rewards) and the prediction model
(returns per-walker value estimates; its policy output is ignored). -/
structure Oracles (n d : ℕ) where
  dynamicsForward : (Fin n → Fin d → ℝ) → (Fin n → ℤ) →
    ((Fin n → Fin d → ℝ) × (Fin n → ℝ))
  predictionForward : (Fin n → Fin d → ℝ) → (Fin n → ℝ)

/-- The stochastic draws of a run, threaded explicitly: per-iteration
sampled actions, per-iteration partner assignments (with replacement,
self-pairing allowed), and the per-iteration single uniform scalar. -/
structure RandomDraws (n : ℕ) where
  actionDraws : ℕ → Fin n → ℤ
  partnerDraws : ℕ → Fin n → Fin n
  uniformDraws : ℕ → ℝ

/-- Configured constants used by the search. -/
structure FMCConfig where
  balance : ℝ
  gamma : ℝ

/-- Model of `_perturbate` together with `_assign_actions`: sample actions
(snapshotting them as root actions if none are recorded yet, which happens
exactly on iteration 0), advance the dynamics model, query the prediction
model on the new state, and write this iteration's rewards into column t
of the reward buffer. -/
def perturbate {n d : ℕ} (o : Oracles n d) (sampled : Fin n → ℤ) (t : ℕ)
    (s : FMCState n d) : FMCState n d :=
  let acts := sampled
  let ra := match s.rootActions with
    | none => some acts
    | some r => some r
  let step := o.dynamicsForward s.walkerState acts
  let pv := o.predictionForward step.1
  { s with
    actions := acts
    rootActions := ra
    walkerState := step.1
    rewards := step.2
    predictedValues := pv
    rewardBuffer := fun i u => if u = t then step.2 i else s.rewardBuffer i u }

/-- Model of `_calculate_distances`: Euclidean distance between each
walker's state and its partner's state. -/
noncomputable def wdistances {n d : ℕ} (st : Fin n → Fin d → ℝ)
    (partners : Fin n → Fin n) : Fin n → ℝ :=
  fun i => Real.sqrt (∑ j, (st i j - st (partners i) j) ^ 2)

/-- Model of `_calculate_virtual_rewards`:
`(relativize(values) ** balance) * relativize(distances)`. -/
noncomputable def virtualRewards {n : ℕ} (b : ℝ) (pv : Fin n → ℝ)
    (dists : Fin n → ℝ) : Fin n → ℝ :=
  fun i => relativizeVector pv i ^ b * relativizeVector dists i

/-- State after the perturbation phase of iteration t. -/
def iterPerturbed {n d : ℕ} (o : Oracles n d) (rnd : RandomDraws n) (t : ℕ)
    (s : FMCState n d) : FMCState n d :=
  perturbate o (rnd.actionDraws t) t s

/-- Virtual rewards computed during `_prepare_clone_variables` at
iteration t. -/
noncomputable def iterVirtualRewards {n d : ℕ} (cfg : FMCConfig)
    (o : Oracles n d) (rnd : RandomDraws n) (t : ℕ) (s : FMCState n d) :
    Fin n → ℝ :=
  virtualRewards cfg.balance (iterPerturbed o rnd t s).predictedValues
    (wdistances (iterPerturbed o rnd t s).walkerState (rnd.partnerDraws t))

/-- Clone probabilities computed at iteration t. -/
noncomputable def iterCloneProbs {n d : ℕ} (cfg : FMCConfig) (o : Oracles n d)
    (rnd : RandomDraws n) (t : ℕ) (s : FMCState n d) : Fin n → ℝ :=
  cloneProbabilities (iterVirtualRewards cfg o rnd t s) (rnd.partnerDraws t)

/-- Clone mask decided at iteration t from the single uniform draw of that
iteration. -/
noncomputable def iterCloneMask {n d : ℕ} (cfg : FMCConfig) (o : Oracles n d)
    (rnd : RandomDraws n) (t : ℕ) (s : FMCState n d) : Fin n → Bool :=
  cloneMaskOf (iterCloneProbs cfg o rnd t s) (rnd.uniformDraws t)

/-- The backward recurrence of `_backpropagate_reward_buffer`:
`for i in reversed(range(t)): acc = reward_buffer[i] + acc * gamma`. -/
def backLoop (rb : ℕ → ℝ) (g : ℝ) : ℕ → ℝ → ℝ
  | 0, acc => acc
  | t + 1, acc => backLoop rb g t (rb t + acc * g)

/-- Effective mask of `_backpropagate_reward_buffer`: all walkers on the
final iteration (t = k-1), this iteration's clone mask otherwise. -/
def effectiveMask {n : ℕ} (t k : ℕ) (cloneMask : Fin n → Bool) :
    Fin n → Bool :=
  if t = k - 1 then fun _ => true else cloneMask

/-- Model of `_backpropagate_reward_buffer` at iteration t of a
k-iteration run: walkers selected by the effective mask receive the
discounted return of the backward recurrence — which runs over reward
columns t-1 down to 0 — added into value_sum, and their visit count is
incremented; the run-level aggregates accumulate the same returns and the
masked-walker count. -/
def backpropagate {n d : ℕ} (t k : ℕ) (g : ℝ) (cloneMask : Fin n → Bool)
    (s : FMCState n d) : FMCState n d :=
  let mask := effectiveMask t k cloneMask
  let cvb : Fin n → ℝ :=
    fun i => if mask i then backLoop (s.rewardBuffer i) g t 0 else 0
  { s with
    valueSum := fun i => s.valueSum i + cvb i
    visitCount := fun i => s.visitCount i + (if mask i then 1 else 0)
    rootValueSum := s.rootValueSum + ∑ i, cvb i
    rootVisits := s.rootVisits + (Finset.univ.filter (fun i => mask i = true)).card }

/-- Pointwise form of `_clone_vector` on whole-population vectors: masked
entries are replaced by their partner's original value (the gather over
the original vector happens before the scatter; the list-level operational
model of the same source line is `cloneVectorList`). -/
def cloneVec {n : ℕ} {α : Type} (v : Fin n → α) (partners : Fin n → Fin n)
    (mask : Fin n → Bool) : Fin n → α :=
  fun i => if mask i then v (partners i) else v i

theorem getD_ofFn_lt {n : ℕ} {α : Type} (f : Fin n → α) (d0 : α) (i : ℕ)
    (h : i < n) : (List.ofFn f).getD i d0 = f ⟨i, h⟩ := by
  rw [List.getD_eq_getElem _ _ (by simpa using h)]
  simp

/-- Agreement of the two embeddings of `_clone_vector`: on list views of
whole-population vectors, the operational gather-then-scatter model
produces exactly the pointwise `cloneVec` values. -/
theorem cloneVec_agrees_with_list {n : ℕ} {α : Type} (d0 : α)
    (v : Fin n → α) (partners : Fin n → Fin n) (mask : Fin n → Bool)
    (i : Fin n) :
    (cloneVectorList d0 (List.ofFn v)
        (List.ofFn (fun j => (partners j : ℕ))) (List.ofFn mask)).getD (i : ℕ) d0 =
      cloneVec v partners mask i := by
  rw [cloneVectorList_getD d0 _ _ _ (i : ℕ) (by simp) (by simp) (by simp)]
  rw [getD_ofFn_lt mask false (i : ℕ) i.isLt]
  rw [getD_ofFn_lt (fun j => (partners j : ℕ)) 0 (i : ℕ) i.isLt]
  simp only [Fin.eta]
  rw [getD_ofFn_lt v d0 (partners i : ℕ) (partners i).isLt]
  rw [getD_ofFn_lt v d0 (i : ℕ) i.isLt]
  simp only [Fin.eta, cloneVec]

/-- Model of `_execute_cloning`: add the bincount histogram of the masked
partners into clone_receives, then clone every per-walker vector (state,
actions, root actions, reward buffer, value sums, visit counts, and
clone_receives itself) with the same mask/partner pair. -/
def executeCloning {n d : ℕ} (partners : Fin n → Fin n) (mask : Fin n → Bool)
    (s : FMCState n d) : FMCState n d :=
  let cr := cloneReceivesUpdate s.cloneReceives partners mask
  { s with
    walkerState := cloneVec s.walkerState partners mask
    actions := cloneVec s.actions partners mask
    rootActions := s.rootActions.map (fun ra => cloneVec ra partners mask)
    rewardBuffer := cloneVec s.rewardBuffer partners mask
    valueSum := cloneVec s.valueSum partners mask
    visitCount := cloneVec s.visitCount partners mask
    cloneReceives := cloneVec cr partners mask }

/-- One iteration of the simulate loop: perturbate, prepare the clone
variables, backpropagate, execute cloning. -/
noncomputable def stepIter {n d : ℕ} (cfg : FMCConfig) (o : Oracles n d)
    (rnd : RandomDraws n) (k t : ℕ) (s : FMCState n d) : FMCState n d :=
  executeCloning (rnd.partnerDraws t) (iterCloneMask cfg o rnd t s)
    (backpropagate t k cfg.gamma (iterCloneMask cfg o rnd t s)
      (iterPerturbed o rnd t s))

/-- The zeroed run-scoped buffers created at the top of `simulate`,
together with the broadcast initial state set by `set_state`. -/
def initState (n d : ℕ) (e : Fin d → ℝ) : FMCState n d :=
  { walkerState := fun _ => e
    actions := fun _ => 0
    rootActions := none
    rewardBuffer := fun _ _ => 0
    valueSum := fun _ => 0
    visitCount := fun _ => 0
    cloneReceives := fun _ => 0
    predictedValues := fun _ => 0
    rewards := fun _ => 0
    rootValueSum := 0
    rootVisits := 0 }

/-- The k-iteration simulate loop. -/
noncomputable def simulateRun {n d : ℕ} (cfg : FMCConfig) (o : Oracles n d)
    (rnd : RandomDraws n) (k : ℕ) (s : FMCState n d) : FMCState n d :=
  (List.range k).foldl (fun acc t => stepIter cfg o rnd k t acc) s

/-- First index attaining the maximum, the tie-breaking rule of
`torch.argmax` (a later index replaces the running best only on a strict
improvement). -/
def argmaxAux {n : ℕ} {α : Type} [LinearOrder α] (f : Fin n → α) :
    Fin n → List (Fin n) → Fin n
  | best, [] => best
  | best, i :: rest => argmaxAux f (if f best < f i then i else best) rest

/-- Model of `torch.argmax` over a nonempty walker population. -/
def argmaxIdx {n : ℕ} {α : Type} [LinearOrder α] [NeZero n]
    (f : Fin n → α) : Fin n :=
  argmaxAux f ⟨0, Nat.pos_of_ne_zero (NeZero.ne n)⟩ (List.finRange n)

/-- Model of `_get_highest_value_action`: the root action of the walker
with the highest average value `value_sum / visit_count` (real division,
unguarded).  The root-action tensor is present whenever at least one
iteration ran; the default branch of `getD` is unreachable then. -/
noncomputable def getHighestValueAction {n d : ℕ} [NeZero n]
    (s : FMCState n d) : ℤ :=
  (s.rootActions.getD (fun _ => 0))
    (argmaxIdx (fun i => s.valueSum i / (s.visitCount i : ℝ)))

/-- Model of `_get_action_with_highest_clone_receives`: the root action of
the walker with the most clone receives. -/
def getActionWithHighestCloneReceives {n d : ℕ} [NeZero n]
    (s : FMCState n d) : ℤ :=
  (s.rootActions.getD (fun _ => 0)) (argmaxIdx s.cloneReceives)

/-- Model of `simulate`: assert k > 0, create the run buffers, run the
k-iteration loop, and return the action chosen by the selected policy. -/
noncomputable def simulate {n d : ℕ} [NeZero n] (cfg : FMCConfig)
    (o : Oracles n d) (rnd : RandomDraws n) (k : ℤ) (greedy : Bool)
    (e : Fin d → ℝ) : Except String ℤ :=
  if k ≤ 0 then Except.error "assertion failed: k > 0"
  else
    let final := simulateRun cfg o rnd k.toNat (initState n d e)
    Except.ok (if greedy then getHighestValueAction final
               else getActionWithHighestCloneReceives final)

/-! ### Backpropagation engine theorems (C1, C8) -/

theorem backLoop_eq_sum (rb : ℕ → ℝ) (g : ℝ) :
    ∀ (t : ℕ) (acc : ℝ),
      backLoop rb g t acc = (∑ u ∈ Finset.range t, g ^ u * rb u) + acc * g ^ t := by
  intro t
  induction t with
  | zero => intro acc; simp [backLoop]
  | succ t ih =>
    intro acc
    rw [backLoop, ih, Finset.sum_range_succ]
    ring

/-- C1 amended: the discounted return that `_backpropagate_reward_buffer`
adds into value_sum[i] for each walker selected by the effective mask is
the backward recurrence over reward columns t-1 down to 0 — the current
iteration's reward column t is not included:
ret = Σ_{u < t} gamma^u * reward_buffer[i][u]; unmasked walkers receive
nothing. -/
theorem backpropagate_value_sum {n d : ℕ} (t k : ℕ) (g : ℝ)
    (cloneMask : Fin n → Bool) (s : FMCState n d) (i : Fin n) :
    (backpropagate t k g cloneMask s).valueSum i =
      s.valueSum i +
        (if effectiveMask t k cloneMask i then
          ∑ u ∈ Finset.range t, g ^ u * s.rewardBuffer i u
        else 0) := by
  have hb := backLoop_eq_sum (s.rewardBuffer i) g t 0
  by_cases h : effectiveMask t k cloneMask i = true
  · simp [backpropagate, h, hb]
  · simp [backpropagate, h]

/-- Reward row of walker 0 in the concrete backpropagation scenario of the
spec: rewards 1, 2, 3 at iterations 0, 1, 2. -/
def c1Rewards : ℕ → ℝ :=
  fun u => if u = 0 then 1 else if u = 1 then 2 else if u = 2 then 3 else 0

/-- Scenario start state: N = 4 walkers, reward buffer holding the fixed
per-iteration rewards, all accumulators zero. -/
def c1State : FMCState 4 1 :=
  { initState 4 1 (fun _ => 0) with rewardBuffer := fun _ u => c1Rewards u }

/-- All-false clone mask (cloning forced off). -/
def maskFalse {n : ℕ} : Fin n → Bool := fun _ => false

/-- The scenario run: three backpropagation steps of a k = 3 run with
gamma = 0.9 and the clone mask forced all-false; the iteration-2 step is
the final iteration, so its effective mask is all walkers. -/
noncomputable def c1Final : FMCState 4 1 :=
  backpropagate 2 3 (9 / 10) maskFalse
    (backpropagate 1 3 (9 / 10) maskFalse
      (backpropagate 0 3 (9 / 10) maskFalse c1State))

/-- C1 counterexample: in the concrete scenario (N = 4, k = 3, gamma =
0.9, walker 0 rewards 1, 2, 3, cloning forced off before the final
forced-full backpropagation), value_sum[0] is 1 + 0.9*2 = 2.8, not the
claimed 1*0.9^2 + 2*0.9 + 3 = 5.61: the code omits the current
iteration's reward from the recurrence. -/
theorem backpropagate_scenario_counterexample :
    c1Final.valueSum 0 = 14 / 5 ∧
      ¬(c1Final.valueSum 0 = 1 * (9 / 10 : ℝ) ^ 2 + 2 * (9 / 10) + 3) := by
  have h : c1Final.valueSum 0 = 14 / 5 := by
    simp [c1Final, backpropagate, effectiveMask, maskFalse, backLoop, c1State,
      c1Rewards, initState]
    norm_num
  exact ⟨h, by rw [h]; norm_num⟩

/-- C8: on a non-final iteration (t < k-1), the backpropagation step
leaves every unmasked walker's buffers unchanged: value_sum, visit_count
and the whole reward-buffer row are identical before and after. -/
theorem backpropagate_frame {n d : ℕ} (t k : ℕ) (g : ℝ)
    (cloneMask : Fin n → Bool) (s : FMCState n d) (i : Fin n)
    (ht : t < k - 1) (hm : cloneMask i = false) :
    (backpropagate t k g cloneMask s).valueSum i = s.valueSum i ∧
    (backpropagate t k g cloneMask s).visitCount i = s.visitCount i ∧
    (backpropagate t k g cloneMask s).rewardBuffer i = s.rewardBuffer i := by
  have hne : t ≠ k - 1 := Nat.ne_of_lt ht
  have hmask : effectiveMask t k cloneMask i = false := by
    simp [effectiveMask, hne, hm]
  refine ⟨?_, ?_, rfl⟩ <;> simp [backpropagate, hmask]

/-- Witness for C8 at iteration 0 of a k = 2 run with an all-false clone
mask on a concrete zeroed state. -/
theorem backpropagate_frame_witness :
    (backpropagate 0 2 (1 / 2) maskFalse (initState 1 1 (fun _ => 0))).valueSum 0 =
        (initState 1 1 (fun _ => 0)).valueSum 0 ∧
      (backpropagate 0 2 (1 / 2) maskFalse (initState 1 1 (fun _ => 0))).visitCount 0 =
        (initState 1 1 (fun _ => 0)).visitCount 0 ∧
      (backpropagate 0 2 (1 / 2) maskFalse (initState 1 1 (fun _ => 0))).rewardBuffer 0 =
        (initState 1 1 (fun _ => 0)).rewardBuffer 0 :=
  backpropagate_frame 0 2 (1 / 2) maskFalse (initState 1 1 (fun _ => 0)) 0
    (by decide) rfl

/-! ### Clone-mask threshold theorem (C5) -/

/-- C5: in every iteration the clone mask is determined by one scalar
threshold drawn once for the whole population: there exists a single r
such that every walker's mask entry holds exactly when its clone
probability compares greater-or-equal against that same r. -/
theorem clone_mask_single_threshold {n d : ℕ} (cfg : FMCConfig)
    (o : Oracles n d) (rnd : RandomDraws n) (t : ℕ) (s : FMCState n d) :
    ∃ r : ℝ, ∀ i : Fin n,
      iterCloneMask cfg o rnd t s i = true ↔
        iterCloneProbs cfg o rnd t s i ≥ r := by
  refine ⟨rnd.uniformDraws t, fun i => ?_⟩
  simp [iterCloneMask, cloneMaskOf]

/-! ### Precondition theorem (C9) -/

/-- C9: `simulate` fails fast with the assertion error when k ≤ 0, before
any iteration runs, and for every k > 0 the precondition check passes and
an action is returned. -/
theorem simulate_precondition {n d : ℕ} (cfg : FMCConfig)
    (o : Oracles (n + 1) d) (rnd : RandomDraws (n + 1)) (k : ℤ)
    (greedy : Bool) (e : Fin d → ℝ) :
    (k ≤ 0 → simulate cfg o rnd k greedy e =
        Except.error "assertion failed: k > 0") ∧
    (0 < k → ∃ a : ℤ, simulate cfg o rnd k greedy e = Except.ok a) := by
  constructor
  · intro h
    simp [simulate, h]
  · intro h
    simp only [simulate, if_neg (not_le.mpr h)]
    exact ⟨_, rfl⟩

/-- Concrete constant oracles on a single walker with embedding size 1. -/
def trivOracles : Oracles 1 1 :=
  { dynamicsForward := fun st _ => (st, fun _ => 0)
    predictionForward := fun _ _ => 0 }

/-- Concrete constant random draws on a single walker. -/
def trivDraws : RandomDraws 1 :=
  { actionDraws := fun _ _ => 0
    partnerDraws := fun _ _ => 0
    uniformDraws := fun _ => 0 }

/-- Concrete configuration. -/
def trivConfig : FMCConfig := { balance := 1, gamma := 1 }

/-- Witness for C9: at k = -1 the simulate call returns the assertion
error, and at k = 1 it returns ok. -/
theorem simulate_precondition_witness :
    simulate trivConfig trivOracles trivDraws (-1) true (fun _ => 0) =
        Except.error "assertion failed: k > 0" ∧
      ∃ a : ℤ, simulate trivConfig trivOracles trivDraws 1 true (fun _ => 0) =
        Except.ok a :=
  ⟨(simulate_precondition trivConfig trivOracles trivDraws (-1) true
      (fun _ => 0)).1 (by norm_num),
   (simulate_precondition trivConfig trivOracles trivDraws 1 true
      (fun _ => 0)).2 (by norm_num)⟩

/-! ### Run-level invariants (C6, C10) -/

theorem executeCloning_visitCount_ge {n d : ℕ} (partners : Fin n → Fin n)
    (mask : Fin n → Bool) (s : FMCState n d) (c : ℕ)
    (h : ∀ i, c ≤ s.visitCount i) :
    ∀ i, c ≤ (executeCloning partners mask s).visitCount i := by
  intro i
  simp only [executeCloning, cloneVec]
  by_cases hm : mask i = true
  · simp only [hm, if_true]
    exact h _
  · simp only [hm, Bool.false_eq_true, if_false]
    exact h _

theorem stepIter_final_visit {n d : ℕ} (cfg : FMCConfig) (o : Oracles n d)
    (rnd : RandomDraws n) (k : ℕ) (s : FMCState n d) (i : Fin n) :
    1 ≤ (stepIter cfg o rnd (k + 1) k s).visitCount i := by
  have hmask : effectiveMask k (k + 1) (iterCloneMask cfg o rnd k s) =
      fun _ => true := by
    simp [effectiveMask]
  have hb : ∀ j, 1 ≤ (backpropagate k (k + 1) cfg.gamma
      (iterCloneMask cfg o rnd k s) (iterPerturbed o rnd k s)).visitCount j := by
    intro j
    simp [backpropagate, hmask]
  exact executeCloning_visitCount_ge _ _ _ 1 hb i

/-- C10: for every completed simulate run with a positive iteration count
k+1, at the moment the greedy selector divides value_sum by visit_count
every walker's visit count is at least 1: the final iteration's
backpropagation uses an all-walkers effective mask and increments every
visit count, and the final cloning step only copies those
already-positive counts. -/
theorem visit_count_positive {n d : ℕ} (cfg : FMCConfig)
    (o : Oracles (n + 1) d) (rnd : RandomDraws (n + 1)) (k : ℕ)
    (e : Fin d → ℝ) (i : Fin (n + 1)) :
    1 ≤ (simulateRun cfg o rnd (k + 1) (initState (n + 1) d e)).visitCount i := by
  unfold simulateRun
  rw [List.range_succ, List.foldl_append, List.foldl_cons, List.foldl_nil]
  exact stepIter_final_visit cfg o rnd k _ i

/-- Invariant used for C6: the root-action tensor is present and all its
entries come from the iteration-0 action draws. -/
def rootInv {n d : ℕ} (a0 : Fin n → ℤ) (s : FMCState n d) : Prop :=
  ∃ ra, s.rootActions = some ra ∧ ∀ i, ∃ j, ra i = a0 j

theorem stepIter_rootInv {n d : ℕ} (cfg : FMCConfig) (o : Oracles n d)
    (rnd : RandomDraws n) (k t : ℕ) (a0 : Fin n → ℤ) (s : FMCState n d)
    (h : rootInv a0 s) : rootInv a0 (stepIter cfg o rnd k t s) := by
  obtain ⟨ra, hra, hmem⟩ := h
  refine ⟨cloneVec ra (rnd.partnerDraws t) (iterCloneMask cfg o rnd t s), ?_, ?_⟩
  · simp [stepIter, executeCloning, backpropagate, iterPerturbed, perturbate, hra]
  · intro i
    simp only [cloneVec]
    by_cases hm : iterCloneMask cfg o rnd t s i = true
    · simpa [hm] using hmem _
    · simpa [hm] using hmem _

theorem stepIter_zero_rootInv {n d : ℕ} (cfg : FMCConfig) (o : Oracles n d)
    (rnd : RandomDraws n) (k : ℕ) (s : FMCState n d)
    (h : s.rootActions = none) :
    rootInv (rnd.actionDraws 0) (stepIter cfg o rnd k 0 s) := by
  refine ⟨cloneVec (rnd.actionDraws 0) (rnd.partnerDraws 0)
    (iterCloneMask cfg o rnd 0 s), ?_, ?_⟩
  · simp [stepIter, executeCloning, backpropagate, iterPerturbed, perturbate, h]
  · intro i
    simp only [cloneVec]
    by_cases hm : iterCloneMask cfg o rnd 0 s i = true
    · simp only [hm, if_true]
      exact ⟨_, rfl⟩
    · simp only [hm, Bool.false_eq_true, if_false]
      exact ⟨_, rfl⟩

theorem foldl_rootInv {n d : ℕ} (cfg : FMCConfig) (o : Oracles n d)
    (rnd : RandomDraws n) (k : ℕ) (a0 : Fin n → ℤ) :
    ∀ (ts : List ℕ) (s : FMCState n d), rootInv a0 s →
      rootInv a0 (ts.foldl (fun acc t => stepIter cfg o rnd k t acc) s) := by
  intro ts
  induction ts with
  | nil => intro s h; exact h
  | cons t rest ih =>
    intro s h
    exact ih _ (stepIter_rootInv cfg o rnd k t a0 s h)

theorem rootInv_highest_value {n d : ℕ} [NeZero n] (a0 : Fin n → ℤ)
    (s : FMCState n d) (h : rootInv a0 s) :
    ∃ j, getHighestValueAction s = a0 j := by
  obtain ⟨ra, hra, hmem⟩ := h
  unfold getHighestValueAction
  rw [hra]
  exact hmem _

theorem rootInv_highest_receives {n d : ℕ} [NeZero n] (a0 : Fin n → ℤ)
    (s : FMCState n d) (h : rootInv a0 s) :
    ∃ j, getActionWithHighestCloneReceives s = a0 j := by
  obtain ⟨ra, hra, hmem⟩ := h
  unfold getActionWithHighestCloneReceives
  rw [hra]
  exact hmem _

/-- C6: for every completed simulate run of k+1 > 0 iterations, the action
returned by either selection policy is one of the action values recorded
as root actions at iteration 0 for at least one original walker: cloning
only copies existing root-action entries between walkers. -/
theorem action_selection_consistency {n d : ℕ} (cfg : FMCConfig)
    (o : Oracles (n + 1) d) (rnd : RandomDraws (n + 1)) (k : ℕ)
    (e : Fin d → ℝ) :
    getHighestValueAction
        (simulateRun cfg o rnd (k + 1) (initState (n + 1) d e)) ∈
      Set.range (rnd.actionDraws 0) ∧
    getActionWithHighestCloneReceives
        (simulateRun cfg o rnd (k + 1) (initState (n + 1) d e)) ∈
      Set.range (rnd.actionDraws 0) := by
  have hinv : rootInv (rnd.actionDraws 0)
      (simulateRun cfg o rnd (k + 1) (initState (n + 1) d e)) := by
    unfold simulateRun
    rw [List.range_succ_eq_map, List.foldl_cons]
    exact foldl_rootInv cfg o rnd (k + 1) (rnd.actionDraws 0) _ _
      (stepIter_zero_rootInv cfg o rnd (k + 1) (initState (n + 1) d e) rfl)
  constructor
  · obtain ⟨j, hj⟩ := rootInv_highest_value _ _ hinv
    exact ⟨j, hj.symm⟩
  · obtain ⟨j, hj⟩ := rootInv_highest_receives _ _ hinv
    exact ⟨j, hj.symm⟩

end FractalZero
